import Mathlib

/-!
Verification of the volleyball round-robin scheduler.

The repository contains three variants of the same React application:
* `src/src/App.js` — fixed opening round `(1,2),(3,4)` plus a load-balanced
  greedy round builder (re-sorts remaining pairs by played counts each round);
* `src/unnamed/part_000` — a plain greedy round builder over the pair list in
  generation order;
* `src/unnamed/part_001` — a seeded-shuffle greedy builder: the pair list
  (minus the fixed opening round) is permuted by a Fisher-Yates shuffle driven
  by the mulberry32 PRNG seeded with the team count, and schedules for team
  counts 4..15 are precomputed once into a cache.

The embeddings below translate those JavaScript functions directly.  JavaScript
numbers are modelled as `Nat`; the 32-bit coercions performed by JavaScript
bitwise operators are modelled by explicit `% 2^32`.  The `while` loops of the
round builders are modelled by structurally recursive functions taking a fuel
argument; the wrappers pass `remaining.length + 1` fuel, which is shown
sufficient by the fuel-irrelevance lemmas further down (every loop iteration
that continues strictly shrinks the remaining list).
-/

/-- JS `generatePairs` (src/src/App.js lines 4-12 and part_000 lines 4-12) and
`generateAllPairs` (part_001 lines 27-35), which are textually identical: all
pairs `(i, j)` with `1 ≤ i < j ≤ teamCount` in lexicographic order. -/
def generatePairs (teamCount : Nat) : List (Nat × Nat) :=
  (List.range' 1 teamCount).flatMap fun i =>
    (List.range' (i+1) (teamCount - i)).map fun j => (i, j)

/-- A match record `{ teams, complete }` as stored in the rounds of
src/src/App.js and part_000. -/
structure Match where
  teams : Nat × Nat
  complete : Bool
deriving DecidableEq

/-- JS pair comparison used by the `findIndex` removals: `t` matches the stored
pair `p` in either orientation (App.js lines 87-90, part_000 lines 39-43). -/
def pairMatches (t p : Nat × Nat) : Bool :=
  (p.1 == t.1 && p.2 == t.2) || (p.1 == t.2 && p.2 == t.1)

namespace Seeded

/-- 2^32, the modulus of all JavaScript 32-bit coercions. -/
def M32 : Nat := 4294967296

/-- One output of the mulberry32 PRNG (part_001 lines 18-25), given the state
`a` after the `a += 0x6d2b79f5` increment.  `Math.imul` is multiplication mod
2^32; `>>>`, `^`, `|` act on the value mod 2^32; the final `>>> 0` makes the
result an unsigned 32-bit integer (the JS function divides it by 2^32 to get a
float in [0,1), which we keep as the integer numerator). -/
def mulberry32 (a : Nat) : Nat :=
  let t1 := a % M32
  let t2 := ((Nat.xor t1 (t1 >>> 15)) * (t1 ||| 1)) % M32
  let z  := ((Nat.xor t2 (t2 >>> 7)) * (t2 ||| 61)) % M32
  let t3 := Nat.xor t2 ((t2 + z) % M32)
  Nat.xor t3 (t3 >>> 14)

/-- The Fisher-Yates loop of `seededShuffle` (part_001 lines 8-13).  At each
step with `m+1` elements left, the JS code computes
`i = Math.floor(random() * m--)` and swaps `arr[m]` and `arr[i]`.  Since the
PRNG output is `out / 2^32` with `out < 2^32` and `(out / 2^32) * (m+1)` is
exact in double precision for the list sizes involved, the floor equals
`out * (m+1) / 2^32` in integer arithmetic.  The PRNG state `a` is advanced by
`0x6d2b79f5` before each output. -/
def fisherGo : Array (Nat × Nat) → Nat → Nat → Array (Nat × Nat)
  | arr, 0, _ => arr
  | arr, m+1, a =>
    let a' := (a + 0x6D2B79F5) % M32
    let i := mulberry32 a' * (m+1) / M32
    let t := arr.getD m (0,0)
    let arr' := (arr.setD m (arr.getD i (0,0))).setD i t
    fisherGo arr' m a'

/-- JS `seededShuffle(array, seed)` (part_001 lines 4-15). -/
def seededShuffle (l : List (Nat × Nat)) (seed : Nat) : List (Nat × Nat) :=
  (fisherGo l.toArray l.length seed).toList

/-- JS `normalizePair` (part_001 lines 37-39). -/
def normalizePair (p : Nat × Nat) : Nat × Nat :=
  if p.1 < p.2 then p else (p.2, p.1)

/-- The inner `for` scan of `scheduleRounds` (part_001 lines 50-61): walk the
remaining pairs, greedily accepting a pair when neither team is used yet,
removing accepted pairs immediately (`splice`), and stopping once the round
holds 2 matches.  Returns the round together with the pairs left over
(rejected pairs stay, in order, before the unscanned suffix). -/
def fillRound : List (Nat × Nat) → List Nat → List (Nat × Nat) →
    List (Nat × Nat) × List (Nat × Nat)
  | [], _, round => (round, [])
  | p :: rest, used, round =>
    if p.1 ∈ used ∨ p.2 ∈ used then
      let r := fillRound rest used round
      (r.1, p :: r.2)
    else
      let round' := round ++ [p]
      if round'.length = 2 then (round', rest)
      else fillRound rest (p.1 :: p.2 :: used) round'

/-- The `while` loop of `scheduleRounds` (part_001 lines 46-68), with fuel.
A full round (2 matches) is appended and the loop repeats; a partial round is
dropped and the loop stops. -/
def buildLoop : Nat → List (Nat × Nat) → List (List (Nat × Nat))
  | 0, _ => []
  | fuel+1, remaining =>
    if remaining.isEmpty then []
    else
      let r := fillRound remaining [] []
      if r.1.length = 2 then r.1 :: buildLoop fuel r.2
      else []

/-- JS `scheduleRounds(pairs)` (part_001 lines 42-71). -/
def scheduleRounds (pairs : List (Nat × Nat)) : List (List (Nat × Nat)) :=
  buildLoop (pairs.length + 1) pairs

/-- The fixed opening round of `precomputeSchedules` (part_001 lines 79-82). -/
def firstRound : List (Nat × Nat) := [(1, 2), (3, 4)]

/-- The body of the `precomputeSchedules` loop for one team count (part_001
lines 77-98): remove the fixed opening pairs (compared in canonical form),
shuffle deterministically with seed `teamCount`, build the remaining rounds
greedily and prepend the fixed opening round. -/
def scheduleFor (teamCount : Nat) : List (List (Nat × Nat)) :=
  let allPairs := generatePairs teamCount
  let firstRoundNorm := firstRound.map normalizePair
  let remainingPairs := allPairs.filter fun p => !(firstRoundNorm.contains (normalizePair p))
  let shuffledPairs := seededShuffle remainingPairs teamCount
  firstRound :: scheduleRounds shuffledPairs

/-- JS `precomputeSchedules()` (part_001 lines 74-102): the cache object keyed
by team count 4..15, built once at module load. -/
def precomputeSchedules : List (Nat × List (List (Nat × Nat))) :=
  (List.range' 4 12).map fun n => (n, scheduleFor n)

/-- The cache read `schedules[teamCount] || []` (part_001 line 120). -/
def schedules (teamCount : Nat) : List (List (Nat × Nat)) :=
  (precomputeSchedules.lookup teamCount).getD []

/-- JS `Set(list)` iteration order: first occurrences, in insertion order. -/
def dedupFirst (l : List Nat) : List Nat :=
  l.foldl (fun acc x => if x ∈ acc then acc else acc ++ [x]) []

/-- JS `toggleMatchComplete(roundIndex, courtIndex)` (part_001 lines 159-169).
The completion state is the object mapping a round index to the array of
completed court indices; toggling rebuilds the round's array from a `Set`,
removing the index if present and appending it otherwise, and stores the
resulting array under the round's key. -/
def toggleMatchComplete (prev : Nat → Option (List Nat)) (roundIndex courtIndex : Nat) :
    Nat → Option (List Nat) :=
  let roundMatches := dedupFirst ((prev roundIndex).getD [])
  let updated :=
    if courtIndex ∈ roundMatches then roundMatches.filter (fun c => c != courtIndex)
    else roundMatches ++ [courtIndex]
  fun k => if k = roundIndex then some updated else prev k

/-- The completion test `completedMatches[roundIndex]?.includes(courtIndex) ?? false`
(part_001 lines 210-211). -/
def matchCompleted (cm : Nat → Option (List Nat)) (roundIndex courtIndex : Nat) : Prop :=
  courtIndex ∈ (cm roundIndex).getD []

instance (cm : Nat → Option (List Nat)) (r c : Nat) : Decidable (matchCompleted cm r c) :=
  inferInstanceAs (Decidable (c ∈ (cm r).getD []))

end Seeded

namespace App

/-- Stable insertion of a pair into a sorted list: `p` goes before the first
entry whose key is at least `key p`. -/
def sortInsert (key : Nat × Nat → Nat) (p : Nat × Nat) :
    List (Nat × Nat) → List (Nat × Nat)
  | [] => [p]
  | q :: l => if key p ≤ key q then p :: q :: l else q :: sortInsert key p l

/-- The in-place `remainingPairs.sort((a, b) => aSum - bSum)` of App.js lines
58-62.  ES2019 `Array.prototype.sort` is required to be stable and consistent
with the comparator, which determines the result uniquely: ascending by key,
ties in the original relative order.  Stable insertion sort realizes exactly
that order. -/
def stableSortBy (key : Nat × Nat → Nat) : List (Nat × Nat) → List (Nat × Nat)
  | [] => []
  | p :: l => sortInsert key p (stableSortBy key l)

/-- The inner `for` scan of `scheduleRounds` (App.js lines 64-80): walk the
sorted remaining pairs; accept a pair when neither team is used in this round
and the pair has not been played; update `playedPairs` (both orientations) and
`matchesCount`; stop at 2 matches.  Accepted pairs are not removed here (the
removal happens after the scan, lines 86-92).  Returns the round, the updated
played set and the updated counts. -/
def scanRound : List (Nat × Nat) → List Nat → List (Nat × Nat) → List Nat → List Match →
    List Match × List (Nat × Nat) × List Nat
  | [], _, played, counts, round => (round, played, counts)
  | p :: rest, used, played, counts, round =>
    if p.1 ∉ used ∧ p.2 ∉ used ∧ (p.1, p.2) ∉ played then
      let round' := round ++ [⟨p, false⟩]
      let played' := (p.2, p.1) :: (p.1, p.2) :: played
      let counts' := (counts.set p.1 (counts.getD p.1 0 + 1)).set p.2 (counts.getD p.2 0 + 1)
      if round'.length = 2 then (round', played', counts')
      else scanRound rest (p.2 :: p.1 :: used) played' counts' round'
    else scanRound rest used played counts round

/-- The `findIndex`/`splice` removal of one scheduled pair from the remaining
list (App.js lines 86-92): drop the first entry equal to `t` in either
orientation; if none matches, the list is unchanged. -/
def removeFirstPair (t : Nat × Nat) : List (Nat × Nat) → List (Nat × Nat)
  | [] => []
  | p :: rest => if pairMatches t p then rest else p :: removeFirstPair t rest

/-- The `while` loop of `scheduleRounds` (App.js lines 53-95), with fuel:
re-sort the remaining pairs by the sum of matches played, scan greedily for a
round of 2, stop if the round cannot be filled, otherwise remove the round's
pairs from the (sorted) remaining list and continue. -/
def buildLoop : Nat → List (Nat × Nat) → List Nat → List (Nat × Nat) → List (List Match)
  | 0, _, _, _ => []
  | fuel+1, remaining, counts, played =>
    if remaining.isEmpty then []
    else
      let sorted := stableSortBy (fun p => counts.getD p.1 0 + counts.getD p.2 0) remaining
      let res := scanRound sorted [] played counts []
      if res.1.length < 2 then []
      else
        let remaining' := res.1.foldl (fun acc m => removeFirstPair m.teams acc) sorted
        res.1 :: buildLoop fuel remaining' res.2.2 res.2.1

/-- JS `scheduleRounds(teamCount)` (src/src/App.js lines 15-98): round 1 is
fixed to `(1,2), (3,4)`, those pairs are filtered out of the pool, the played
counts of teams 1-4 are pre-set to 1 (the counts object is modelled as an
list indexed by team id; for `teamCount < 4` the out-of-range write to key 4
is dropped, which is unobservable because no generated pair names team 4
then), and the greedy loop builds the remaining rounds. -/
def scheduleRounds (teamCount : Nat) : List (List Match) :=
  let allPairs := generatePairs teamCount
  let round1 : List Match := [⟨(1, 2), false⟩, ⟨(3, 4), false⟩]
  let remainingPairs := allPairs.filter fun p =>
    !((p.1 == 1 && p.2 == 2) || (p.1 == 2 && p.2 == 1) ||
      (p.1 == 3 && p.2 == 4) || (p.1 == 4 && p.2 == 3))
  let counts := ((((List.replicate (teamCount+1) 0).set 1 1).set 2 1).set 3 1).set 4 1
  let played : List (Nat × Nat) := [(1,2), (2,1), (3,4), (4,3)]
  round1 :: buildLoop (remainingPairs.length + 1) remainingPairs counts played

end App

namespace Plain

/-- The inner `for` scan of `groupRounds` (part_000 lines 23-31): accept a
match when neither of its teams is used in this round; stop at 2 matches.
Accepted matches are not removed here (removal happens after, lines 38-45). -/
def scanRound : List Match → List Nat → List Match → List Match
  | [], _, round => round
  | m :: rest, used, round =>
    if m.teams.1 ∉ used ∧ m.teams.2 ∉ used then
      let round' := round ++ [m]
      if round'.length = 2 then round'
      else scanRound rest (m.teams.2 :: m.teams.1 :: used) round'
    else scanRound rest used round

/-- The `findIndex`/`splice` removal of a used match (part_000 lines 38-45). -/
def removeFirstBy (t : Nat × Nat) : List Match → List Match
  | [] => []
  | m :: rest => if pairMatches t m.teams then rest else m :: removeFirstBy t rest

/-- The `while` loop of `groupRounds` (part_000 lines 19-46), with fuel. -/
def buildLoop : Nat → List Match → List (List Match)
  | 0, _ => []
  | fuel+1, remaining =>
    if remaining.isEmpty then []
    else
      let round := scanRound remaining [] []
      if round.length < 2 then []
      else round :: buildLoop fuel
        (round.foldl (fun acc m => removeFirstBy m.teams acc) remaining)

/-- JS `groupRounds(pairs)` (part_000 lines 15-49). -/
def groupRounds (pairs : List (Nat × Nat)) : List (List Match) :=
  buildLoop (pairs.length + 1) (pairs.map fun p => ⟨p, false⟩)

/-- The schedule produced for a team count by part_000 (lines 63-67). -/
def schedule (teamCount : Nat) : List (List Match) :=
  groupRounds (generatePairs teamCount)

end Plain

/-- JS `array.map((x, idx) => f(idx, x))`, threading the element index. -/
def mapWithIdx (f : Nat → α → β) : Nat → List α → List β
  | _, [] => []
  | i, a :: l => f i a :: mapWithIdx f (i+1) l

/-- JS `toggleComplete(roundIndex, courtIndex)` — textually identical in
src/src/App.js lines 137-147 and part_000 lines 95-105: map over all rounds
and matches, flipping `complete` exactly at the addressed position. -/
def toggleComplete (rounds : List (List Match)) (roundIndex courtIndex : Nat) :
    List (List Match) :=
  mapWithIdx (fun rIdx round =>
    mapWithIdx (fun cIdx m =>
      if rIdx = roundIndex ∧ cIdx = courtIndex then { m with complete := !m.complete }
      else m) 0 round) 0 rounds

/-- The match stored at `(roundIndex, courtIndex)`, when both indices are in
range. -/
def matchAt (rounds : List (List Match)) (roundIndex courtIndex : Nat) : Option Match :=
  (rounds[roundIndex]?).bind fun round => round[courtIndex]?

/-- Round disjointness: no team id occurs in more than one pair of the round. -/
abbrev teamsDisjoint (r : List (Nat × Nat)) : Prop :=
  r.Pairwise fun p q => p.1 ≠ q.1 ∧ p.1 ≠ q.2 ∧ p.2 ≠ q.1 ∧ p.2 ≠ q.2

/-- The team pairings of a schedule whose rounds hold match records. -/
def teamsOf (s : List (List Match)) : List (List (Nat × Nat)) :=
  s.map fun r => r.map Match.teams

/-- Executable check of the three schedule invariants for one schedule: every
round has exactly 2 pairwise team-disjoint matches, the canonical pairs across
the whole schedule are distinct, and the match count is at most `n(n-1)/2`. -/
def schedOK (n : Nat) (s : List (List (Nat × Nat))) : Bool :=
  s.all (fun r => r.length == 2 && decide (teamsDisjoint r)) &&
  decide (s.flatten.map Seeded.normalizePair).Nodup &&
  decide (s.flatten.length ≤ n * (n - 1) / 2)

/-- Executable check of the schedule invariants for all three variants at one
team count. -/
def checkAll (n : Nat) : Bool :=
  schedOK n (teamsOf (App.scheduleRounds n)) &&
  schedOK n (teamsOf (Plain.schedule n)) &&
  schedOK n (Seeded.scheduleFor n)

/-- Round disjointness of every generated round, for all three variants. -/
abbrev DisjointAt (n : Nat) : Prop :=
  (∀ r ∈ teamsOf (App.scheduleRounds n), teamsDisjoint r) ∧
  (∀ r ∈ teamsOf (Plain.schedule n), teamsDisjoint r) ∧
  (∀ r ∈ Seeded.scheduleFor n, teamsDisjoint r)

/-- Completeness bound and no-repeated-pair, for all three variants. -/
abbrev PairBoundAt (n : Nat) : Prop :=
  (((teamsOf (App.scheduleRounds n)).flatten.map Seeded.normalizePair).Nodup ∧
    (teamsOf (App.scheduleRounds n)).flatten.length ≤ n * (n - 1) / 2) ∧
  (((teamsOf (Plain.schedule n)).flatten.map Seeded.normalizePair).Nodup ∧
    (teamsOf (Plain.schedule n)).flatten.length ≤ n * (n - 1) / 2) ∧
  (((Seeded.scheduleFor n).flatten.map Seeded.normalizePair).Nodup ∧
    (Seeded.scheduleFor n).flatten.length ≤ n * (n - 1) / 2)

/-- Every emitted round holds exactly 2 matches, for all three variants. -/
abbrev FullRoundsAt (n : Nat) : Prop :=
  (∀ r ∈ App.scheduleRounds n, r.length = 2) ∧
  (∀ r ∈ Plain.schedule n, r.length = 2) ∧
  (∀ r ∈ Seeded.scheduleFor n, r.length = 2)

/-- The fixed opening round appears first, in the two fixed-opening variants. -/
abbrev FixedOpeningAt (n : Nat) : Prop :=
  (App.scheduleRounds n).head? = some [⟨(1, 2), false⟩, ⟨(3, 4), false⟩] ∧
  (Seeded.scheduleFor n).head? = some [(1, 2), (3, 4)]

/-- The cached schedule for a team count coincides with a fresh regeneration. -/
abbrev DeterministicAt (n : Nat) : Prop :=
  Seeded.schedules n = Seeded.scheduleFor n

/-- A sample completion state for the set-based toggle: in round 0, courts 0
and 1 are complete (stored in that order). -/
def cmExample : Nat → Option (List Nat) :=
  fun k => if k = 0 then some [0, 1] else none

/-- A sample rounds state for the rounds-based toggle. -/
def exRounds : List (List Match) :=
  [[⟨(1, 2), false⟩, ⟨(3, 4), true⟩], [⟨(1, 3), false⟩, ⟨(2, 4), false⟩]]

/-- A sample remaining-match list for the termination witness. -/
def exMatches : List Match := [⟨(1, 2), false⟩, ⟨(3, 4), false⟩]

set_option maxRecDepth 1000000
set_option maxHeartbeats 8000000

theorem chkAll4 : checkAll 4 = true := by decide

theorem chkAll5 : checkAll 5 = true := by decide

theorem chkAll6 : checkAll 6 = true := by decide

theorem chkAll7 : checkAll 7 = true := by decide

theorem chkAll8 : checkAll 8 = true := by decide

theorem chkAll9 : checkAll 9 = true := by decide

theorem chkAll10 : checkAll 10 = true := by decide

theorem chkAll11 : checkAll 11 = true := by decide

theorem chkAll12 : checkAll 12 = true := by decide

theorem chkAll13 : checkAll 13 = true := by decide

theorem chkAll14 : checkAll 14 = true := by decide

theorem chkAll15 : checkAll 15 = true := by decide

/-- Kernel-checked evaluation of the three schedule invariants for every team
count in [4,15] and all three variants. -/
theorem checkAll_true : ∀ n, n < 16 → 4 ≤ n → checkAll n = true := by
  intro n h1 h2
  interval_cases n
  exacts [chkAll4, chkAll5, chkAll6, chkAll7, chkAll8, chkAll9, chkAll10,
    chkAll11, chkAll12, chkAll13, chkAll14, chkAll15]

theorem checkAll_spec {n : Nat} (h : checkAll n = true) :
    schedOK n (teamsOf (App.scheduleRounds n)) = true ∧
    schedOK n (teamsOf (Plain.schedule n)) = true ∧
    schedOK n (Seeded.scheduleFor n) = true := by
  unfold checkAll at h
  simp only [Bool.and_eq_true] at h
  exact ⟨h.1.1, h.1.2, h.2⟩

theorem schedOK_rounds {n : Nat} {s : List (List (Nat × Nat))} (h : schedOK n s = true) :
    ∀ r ∈ s, r.length = 2 ∧ teamsDisjoint r := by
  unfold schedOK at h
  simp only [Bool.and_eq_true, List.all_eq_true, decide_eq_true_eq, beq_iff_eq] at h
  exact h.1.1

theorem schedOK_pairs {n : Nat} {s : List (List (Nat × Nat))} (h : schedOK n s = true) :
    (s.flatten.map Seeded.normalizePair).Nodup ∧ s.flatten.length ≤ n * (n - 1) / 2 := by
  unfold schedOK at h
  simp only [Bool.and_eq_true, List.all_eq_true, decide_eq_true_eq, beq_iff_eq] at h
  exact ⟨h.1.2, h.2⟩

/-- C1.  For every team count N in [4,15] and every variant, every Round in the
generated Schedule is disjoint: no Team id occurs in more than one Match of
the same Round. -/
theorem claim_round_disjointness : ∀ n, n < 16 → 4 ≤ n → DisjointAt n := by
  intro n h1 h2
  obtain ⟨hA, hP, hS⟩ := checkAll_spec (checkAll_true n h1 h2)
  exact ⟨fun r hr => (schedOK_rounds hA r hr).2,
         fun r hr => (schedOK_rounds hP r hr).2,
         fun r hr => (schedOK_rounds hS r hr).2⟩

theorem claim_round_disjointness_witness : DisjointAt 5 :=
  claim_round_disjointness 5 (by decide) (by decide)

/-- C2.  For every team count N in [4,15] and every variant, the generated
Schedule contains at most N(N-1)/2 matches and each canonical pair appears in
at most one Match across the whole Schedule, the fixed opening round
included. -/
theorem claim_completeness_bound : ∀ n, n < 16 → 4 ≤ n → PairBoundAt n := by
  intro n h1 h2
  obtain ⟨hA, hP, hS⟩ := checkAll_spec (checkAll_true n h1 h2)
  exact ⟨schedOK_pairs hA, schedOK_pairs hP, schedOK_pairs hS⟩

theorem claim_completeness_bound_witness : PairBoundAt 6 :=
  claim_completeness_bound 6 (by decide) (by decide)

/-- C3.  For every team count N in [4,15] and every variant, every Round in
the generated Schedule contains exactly 2 Matches; a 1-match round is never
emitted (the builders drop a partial round and stop). -/
theorem claim_no_short_rounds : ∀ n, n < 16 → 4 ≤ n → FullRoundsAt n := by
  intro n h1 h2
  obtain ⟨hA, hP, hS⟩ := checkAll_spec (checkAll_true n h1 h2)
  refine ⟨fun r hr => ?_, fun r hr => ?_, fun r hr => (schedOK_rounds hS r hr).1⟩
  · have hm : r.map Match.teams ∈ teamsOf (App.scheduleRounds n) := by
      unfold teamsOf
      exact List.mem_map.mpr ⟨r, hr, rfl⟩
    simpa using (schedOK_rounds hA _ hm).1
  · have hm : r.map Match.teams ∈ teamsOf (Plain.schedule n) := by
      unfold teamsOf
      exact List.mem_map.mpr ⟨r, hr, rfl⟩
    simpa using (schedOK_rounds hP _ hm).1

theorem claim_no_short_rounds_witness : FullRoundsAt 7 :=
  claim_no_short_rounds 7 (by decide) (by decide)

/-- C4.  For every team count N ≥ 4, in the fixed-opening variants the first
Round of the generated Schedule is exactly the two matches (1,2) and (3,4),
in that order (both builders prepend the fixed round unconditionally). -/
theorem claim_fixed_opening : ∀ n, 4 ≤ n → FixedOpeningAt n :=
  fun _ _ => ⟨rfl, rfl⟩

theorem claim_fixed_opening_witness : FixedOpeningAt 10 :=
  claim_fixed_opening 10 (by decide)

theorem lookup_map_pair {α : Type} (f : Nat → α) :
    ∀ (l : List Nat) (n : Nat), n ∈ l → (l.map fun k => (k, f k)).lookup n = some (f n) := by
  intro l
  induction l with
  | nil => intro n hn; cases hn
  | cons k t ih =>
    intro n hn
    by_cases hk : n = k
    · subst hk
      simp [List.lookup]
    · have hnt : n ∈ t := by
        cases hn with
        | head => exact absurd rfl hk
        | tail _ h => exact h
      have hbeq : (n == k) = false := beq_false_of_ne hk
      simp [List.lookup, hbeq, ih n hnt]

/-- C5.  The seeded generator is deterministic: for every team count in
[4,15], the schedule cached at module load (first invocation) is identical to
a fresh run of the generator for that team count (what any later regeneration
reproduces).  The generator itself is the pure Fisher-Yates shuffle seeded
with the team count followed by the greedy builder, so its output depends on
the team count alone. -/
theorem claim_determinism : ∀ n, n < 16 → 4 ≤ n → DeterministicAt n := by
  intro n h1 h2
  have hmem : n ∈ List.range' 4 12 := List.mem_range'_1.mpr ⟨h2, by omega⟩
  show (Seeded.precomputeSchedules.lookup n).getD [] = Seeded.scheduleFor n
  unfold Seeded.precomputeSchedules
  rw [lookup_map_pair Seeded.scheduleFor _ _ hmem]
  rfl

theorem claim_determinism_witness : DeterministicAt 7 :=
  claim_determinism 7 (by decide) (by decide)

/-- C6.  For N = 4 in the fixed-opening variants, the generated Schedule is a
perfect round robin: exactly 3 rounds of 2 matches each, opening with
(1,2),(3,4), and covering all 6 pairs of the 4 teams. -/
theorem claim_four_team_round_robin :
    (App.scheduleRounds 4).length = 3 ∧
    (∀ r ∈ App.scheduleRounds 4, r.length = 2) ∧
    (App.scheduleRounds 4).head? = some [⟨(1, 2), false⟩, ⟨(3, 4), false⟩] ∧
    (∀ p ∈ generatePairs 4, p ∈ (teamsOf (App.scheduleRounds 4)).flatten.map Seeded.normalizePair) ∧
    (Seeded.scheduleFor 4).length = 3 ∧
    (∀ r ∈ Seeded.scheduleFor 4, r.length = 2) ∧
    (Seeded.scheduleFor 4).head? = some [(1, 2), (3, 4)] ∧
    (∀ p ∈ generatePairs 4, p ∈ (Seeded.scheduleFor 4).flatten.map Seeded.normalizePair) := by
  decide

theorem claim_four_team_round_robin_witness :
    (1, 4) ∈ (Seeded.scheduleFor 4).flatten.map Seeded.normalizePair :=
  claim_four_team_round_robin.2.2.2.2.2.2.2 (1, 4) (by decide)

/-- C7 counterexample.  The round builder does not fail for team counts
outside [4,15]: called with team count 3 it returns normally, producing the
fixed opening round — which even names the nonexistent team 4 — and no error
of any kind (the source has no validation and no throw path). -/
theorem claim_invalid_argument_counterexample :
    App.scheduleRounds 3 = [[⟨(1, 2), false⟩, ⟨(3, 4), false⟩]] := by decide

/-- C7 amended.  The round builder performs no team-count validation and never
fails: for every team count, including all values outside [4,15], it returns a
schedule normally, always beginning with the fixed opening round.  Range
enforcement exists only in the callers (the UI select/clamp). -/
theorem claim_invalid_argument_amended :
    ∀ n, (App.scheduleRounds n).head? = some [⟨(1, 2), false⟩, ⟨(3, 4), false⟩] ∧
      App.scheduleRounds n ≠ [] := by
  intro n
  exact ⟨rfl, fun h => List.noConfusion h⟩

theorem claim_invalid_argument_amended_witness :
    (App.scheduleRounds 16).head? = some [⟨(1, 2), false⟩, ⟨(3, 4), false⟩] ∧
      App.scheduleRounds 16 ≠ [] :=
  claim_invalid_argument_amended 16

-- Section A: fillRound accounting and seeded fuel irrelevance

theorem fillRound_length : ∀ (l : List (Nat × Nat)) (used : List Nat) (round : List (Nat × Nat)),
    (Seeded.fillRound l used round).1.length + (Seeded.fillRound l used round).2.length
      = round.length + l.length := by
  intro l
  induction l with
  | nil => intro used round; simp [Seeded.fillRound]
  | cons p rest ih =>
    intro used round
    simp only [Seeded.fillRound]
    split
    · have := ih used round
      dsimp only
      simp only [List.length_cons]
      omega
    · split
      · dsimp only
        simp only [List.length_append, List.length_cons, List.length_nil]
        omega
      · have := ih (p.1 :: p.2 :: used) (round ++ [p])
        simp only [List.length_append, List.length_cons, List.length_nil] at this ⊢
        omega

theorem buildLoop_fuel_seeded : ∀ (f g : Nat) (remaining : List (Nat × Nat)),
    remaining.length < f → remaining.length < g →
    Seeded.buildLoop f remaining = Seeded.buildLoop g remaining := by
  intro f
  induction f with
  | zero => intro g r hf; omega
  | succ f ih =>
    intro g remaining hf hg
    cases g with
    | zero => omega
    | succ g =>
      simp only [Seeded.buildLoop]
      by_cases hemp : remaining.isEmpty
      · simp [hemp]
      · rw [if_neg hemp, if_neg hemp]
        by_cases h2 : (Seeded.fillRound remaining [] []).1.length = 2
        · rw [if_pos h2, if_pos h2]
          have hacc := fillRound_length remaining [] []
          simp only [List.length_nil] at hacc
          congr 1
          exact ih g _ (by omega) (by omega)
        · rw [if_neg h2, if_neg h2]

-- Section B: removal and scan lemmas, App/Plain fuel irrelevance

theorem pairMatches_self (t : Nat × Nat) : pairMatches t t = true := by
  simp [pairMatches]

theorem removeFirstPair_length_le (t : Nat × Nat) :
    ∀ l : List (Nat × Nat), (App.removeFirstPair t l).length ≤ l.length := by
  intro l
  induction l with
  | nil => simp [App.removeFirstPair]
  | cons p rest ih =>
    simp only [App.removeFirstPair]
    split
    · simp
    · simp only [List.length_cons]
      omega

theorem removeFirstPair_length_lt (t : Nat × Nat) :
    ∀ l : List (Nat × Nat), t ∈ l → (App.removeFirstPair t l).length < l.length := by
  intro l
  induction l with
  | nil => intro h; cases h
  | cons p rest ih =>
    intro hmem
    simp only [App.removeFirstPair]
    split
    · simp only [List.length_cons]; omega
    · rename_i hnm
      have hpr : t ∈ rest := by
        cases hmem with
        | head => exact absurd (pairMatches_self t) (by simpa using hnm)
        | tail _ h => exact h
      simp only [List.length_cons]
      exact Nat.succ_lt_succ (ih hpr)

theorem foldl_removeFirstPair_le (ms : List Match) :
    ∀ init : List (Nat × Nat),
      (ms.foldl (fun acc m => App.removeFirstPair m.teams acc) init).length ≤ init.length := by
  induction ms with
  | nil => intro init; simp
  | cons m rest ih =>
    intro init
    simp only [List.foldl_cons]
    exact Nat.le_trans (ih _) (removeFirstPair_length_le m.teams init)

theorem scanRound_app_mem :
    ∀ (l : List (Nat × Nat)) (used : List Nat) (played : List (Nat × Nat))
      (counts : List Nat) (round : List Match) (m : Match),
      m ∈ (App.scanRound l used played counts round).1 → m ∈ round ∨ m.teams ∈ l := by
  intro l
  induction l with
  | nil =>
    intro used played counts round m hm
    simp only [App.scanRound] at hm
    exact Or.inl hm
  | cons p rest ih =>
    intro used played counts round m hm
    simp only [App.scanRound] at hm
    split at hm
    · split at hm
      · dsimp only at hm
        rcases List.mem_append.mp hm with h | h
        · exact Or.inl h
        · simp only [List.mem_singleton] at h
          subst h
          exact Or.inr (List.mem_cons_self _ _)
      · rcases ih _ _ _ _ _ hm with h | h
        · rcases List.mem_append.mp h with h' | h'
          · exact Or.inl h'
          · simp only [List.mem_singleton] at h'
            subst h'
            exact Or.inr (List.mem_cons_self _ _)
        · exact Or.inr (List.mem_cons_of_mem _ h)
    · rcases ih _ _ _ _ _ hm with h | h
      · exact Or.inl h
      · exact Or.inr (List.mem_cons_of_mem _ h)

theorem sortInsert_length (key : Nat × Nat → Nat) (p : Nat × Nat) :
    ∀ l : List (Nat × Nat), (App.sortInsert key p l).length = l.length + 1 := by
  intro l
  induction l with
  | nil => simp [App.sortInsert]
  | cons q rest ih =>
    simp only [App.sortInsert]
    split
    · simp
    · simp only [List.length_cons, ih]

theorem stableSortBy_length (key : Nat × Nat → Nat) :
    ∀ l : List (Nat × Nat), (App.stableSortBy key l).length = l.length := by
  intro l
  induction l with
  | nil => simp [App.stableSortBy]
  | cons p rest ih =>
    simp only [App.stableSortBy, sortInsert_length, ih, List.length_cons]

theorem buildLoop_fuel_app : ∀ (f g : Nat) (remaining : List (Nat × Nat))
    (counts : List Nat) (played : List (Nat × Nat)),
    remaining.length < f → remaining.length < g →
    App.buildLoop f remaining counts played = App.buildLoop g remaining counts played := by
  intro f
  induction f with
  | zero => intro g r c p hf; omega
  | succ f ih =>
    intro g remaining counts played hf hg
    cases g with
    | zero => omega
    | succ g =>
      simp only [App.buildLoop]
      by_cases hemp : remaining.isEmpty
      · simp [hemp]
      · rw [if_neg hemp, if_neg hemp]
        set sorted := App.stableSortBy
          (fun p => counts.getD p.1 0 + counts.getD p.2 0) remaining with hsorted
        set res := App.scanRound sorted [] played counts [] with hres
        by_cases h2 : res.1.length < 2
        · rw [if_pos h2, if_pos h2]
        · rw [if_neg h2, if_neg h2]
          have hslen : sorted.length = remaining.length := by
            rw [hsorted]; exact stableSortBy_length _ remaining
          have hshrink : (res.1.foldl (fun acc m => App.removeFirstPair m.teams acc) sorted).length
              < remaining.length := by
            rcases hr1 : res.1 with _ | ⟨m, rest⟩
            · rw [hr1] at h2; simp at h2
            · have hm : m ∈ res.1 := by rw [hr1]; exact List.mem_cons_self _ _
              have := scanRound_app_mem sorted [] played counts [] m hm
              rcases this with h | h
              · cases h
              · calc ((m :: rest).foldl (fun acc x => App.removeFirstPair x.teams acc) sorted).length
                    ≤ (App.removeFirstPair m.teams sorted).length := by
                      simpa using foldl_removeFirstPair_le rest (App.removeFirstPair m.teams sorted)
                  _ < sorted.length := removeFirstPair_length_lt m.teams sorted h
                  _ = remaining.length := hslen
          congr 1
          exact ih g _ _ _ (by omega) (by omega)


theorem removeFirstBy_length_le (t : Nat × Nat) :
    ∀ l : List Match, (Plain.removeFirstBy t l).length ≤ l.length := by
  intro l
  induction l with
  | nil => simp [Plain.removeFirstBy]
  | cons m rest ih =>
    simp only [Plain.removeFirstBy]
    split
    · simp
    · simp only [List.length_cons]
      omega

theorem removeFirstBy_length_lt :
    ∀ (l : List Match) (m : Match), m ∈ l → (Plain.removeFirstBy m.teams l).length < l.length := by
  intro l
  induction l with
  | nil => intro m h; cases h
  | cons x rest ih =>
    intro m hmem
    simp only [Plain.removeFirstBy]
    split
    · simp only [List.length_cons]; omega
    · rename_i hnm
      rcases List.mem_cons.mp hmem with heq | hpr
      · subst heq
        exact absurd (pairMatches_self m.teams) (by simpa using hnm)
      · simp only [List.length_cons]
        exact Nat.succ_lt_succ (ih m hpr)

theorem foldl_removeFirstBy_le (ms : List Match) :
    ∀ init : List Match,
      (ms.foldl (fun acc m => Plain.removeFirstBy m.teams acc) init).length ≤ init.length := by
  induction ms with
  | nil => intro init; simp
  | cons m rest ih =>
    intro init
    simp only [List.foldl_cons]
    exact Nat.le_trans (ih _) (removeFirstBy_length_le m.teams init)

theorem scanRound_plain_mem :
    ∀ (l : List Match) (used : List Nat) (round : List Match) (m : Match),
      m ∈ Plain.scanRound l used round → m ∈ round ∨ m ∈ l := by
  intro l
  induction l with
  | nil =>
    intro used round m hm
    simp only [Plain.scanRound] at hm
    exact Or.inl hm
  | cons x rest ih =>
    intro used round m hm
    simp only [Plain.scanRound] at hm
    split at hm
    · split at hm
      · rcases List.mem_append.mp hm with h | h
        · exact Or.inl h
        · simp only [List.mem_singleton] at h
          subst h
          exact Or.inr (List.mem_cons_self _ _)
      · rcases ih _ _ _ hm with h | h
        · rcases List.mem_append.mp h with h' | h'
          · exact Or.inl h'
          · simp only [List.mem_singleton] at h'
            subst h'
            exact Or.inr (List.mem_cons_self _ _)
        · exact Or.inr (List.mem_cons_of_mem _ h)
    · rcases ih _ _ _ hm with h | h
      · exact Or.inl h
      · exact Or.inr (List.mem_cons_of_mem _ h)

theorem buildLoop_fuel_plain : ∀ (f g : Nat) (remaining : List Match),
    remaining.length < f → remaining.length < g →
    Plain.buildLoop f remaining = Plain.buildLoop g remaining := by
  intro f
  induction f with
  | zero => intro g r hf; omega
  | succ f ih =>
    intro g remaining hf hg
    cases g with
    | zero => omega
    | succ g =>
      simp only [Plain.buildLoop]
      by_cases hemp : remaining.isEmpty
      · simp [hemp]
      · rw [if_neg hemp, if_neg hemp]
        set round := Plain.scanRound remaining [] [] with hround
        by_cases h2 : round.length < 2
        · rw [if_pos h2, if_pos h2]
        · rw [if_neg h2, if_neg h2]
          have hshrink : (round.foldl (fun acc m => Plain.removeFirstBy m.teams acc) remaining).length
              < remaining.length := by
            rcases hr1 : round with _ | ⟨m, rest⟩
            · rw [hr1] at h2; simp at h2
            · have hm : m ∈ round := by rw [hr1]; exact List.mem_cons_self _ _
              have := scanRound_plain_mem remaining [] [] m hm
              rcases this with h | h
              · cases h
              · calc ((m :: rest).foldl (fun acc x => Plain.removeFirstBy x.teams acc) remaining).length
                    ≤ (Plain.removeFirstBy m.teams remaining).length := by
                      simpa using foldl_removeFirstBy_le rest (Plain.removeFirstBy m.teams remaining)
                  _ < remaining.length := removeFirstBy_length_lt remaining m h
          congr 1
          exact ih g _ (by omega) (by omega)

-- Section C: mapWithIdx lemmas, toggle proofs

theorem mapWithIdx_getElem? (f : Nat → α → β) :
    ∀ (l : List α) (i k : Nat), (mapWithIdx f i l)[k]? = (l[k]?).map (f (i + k)) := by
  intro l
  induction l with
  | nil => intro i k; simp [mapWithIdx]
  | cons a rest ih =>
    intro i k
    cases k with
    | zero => simp [mapWithIdx]
    | succ k =>
      simp only [mapWithIdx, List.getElem?_cons_succ]
      rw [ih (i+1) k]
      have : i + 1 + k = i + (k + 1) := by omega
      rw [this]

theorem mapWithIdx_eq_self (f : Nat → α → α) :
    ∀ (l : List α) (i : Nat), (∀ k a, l[k]? = some a → f (i + k) a = a) →
      mapWithIdx f i l = l := by
  intro l
  induction l with
  | nil => intro i _; rfl
  | cons a rest ih =>
    intro i h
    simp only [mapWithIdx]
    have h0 : f i a = a := by
      have := h 0 a (by simp)
      simpa using this
    rw [h0]
    congr 1
    apply ih (i+1)
    intro k b hk
    have := h (k+1) b (by simpa using hk)
    have hik : i + (k + 1) = i + 1 + k := by omega
    rw [hik] at this
    exact this


theorem mapWithIdx_id (f : Nat → α → α) (h : ∀ k a, f k a = a) :
    ∀ (l : List α) (i : Nat), mapWithIdx f i l = l := by
  intro l i
  exact mapWithIdx_eq_self f l i (fun k a _ => h (i + k) a)

theorem mapWithIdx_comp (f g : Nat → α → α) :
    ∀ (l : List α) (i : Nat),
      mapWithIdx g i (mapWithIdx f i l) = mapWithIdx (fun k a => g k (f k a)) i l := by
  intro l
  induction l with
  | nil => intro i; rfl
  | cons a rest ih =>
    intro i
    simp only [mapWithIdx]
    rw [ih (i+1)]

theorem map_mapWithIdx (f : Nat → α → β) (g : β → γ) :
    ∀ (l : List α) (i : Nat),
      (mapWithIdx f i l).map g = mapWithIdx (fun k a => g (f k a)) i l := by
  intro l
  induction l with
  | nil => intro i; rfl
  | cons a rest ih =>
    intro i
    simp only [mapWithIdx, List.map_cons]
    rw [ih (i+1)]

theorem mapWithIdx_constf (g : α → β) :
    ∀ (l : List α) (i : Nat), mapWithIdx (fun _ a => g a) i l = l.map g := by
  intro l
  induction l with
  | nil => intro i; rfl
  | cons a rest ih =>
    intro i
    simp only [mapWithIdx, List.map_cons]
    rw [ih (i+1)]

-- App toggle involution
theorem toggle_toggle (rounds : List (List Match)) (r c : Nat) :
    toggleComplete (toggleComplete rounds r c) r c = rounds := by
  unfold toggleComplete
  rw [mapWithIdx_comp]
  apply mapWithIdx_id
  intro k round
  rw [mapWithIdx_comp]
  apply mapWithIdx_id
  intro k2 m
  by_cases hc : k = r ∧ k2 = c
  · cases m with
    | mk t b => simp [hc]
  · simp [hc]

theorem toggle_teams (rounds : List (List Match)) (r c : Nat) :
    teamsOf (toggleComplete rounds r c) = teamsOf rounds := by
  unfold teamsOf toggleComplete
  rw [map_mapWithIdx]
  have h1 : ∀ (k : Nat) (round : List Match),
      (mapWithIdx (fun cIdx m =>
        if k = r ∧ cIdx = c then { m with complete := !m.complete } else m) 0 round).map
          Match.teams = round.map Match.teams := by
    intro k round
    rw [map_mapWithIdx]
    have : (fun (k2 : Nat) (m : Match) =>
        (if k = r ∧ k2 = c then { m with complete := !m.complete } else m).teams)
        = fun (_ : Nat) (m : Match) => m.teams := by
      funext k2 m
      by_cases hc : k = r ∧ k2 = c <;> simp [hc]
    rw [this, mapWithIdx_constf]
  have : (fun (k : Nat) (round : List Match) =>
      (mapWithIdx (fun cIdx m =>
        if k = r ∧ cIdx = c then { m with complete := !m.complete } else m) 0 round).map
          Match.teams)
      = fun (_ : Nat) (round : List Match) => round.map Match.teams := by
    funext k round
    exact h1 k round
  rw [this, mapWithIdx_constf]

theorem toggle_frame_other (rounds : List (List Match)) (r c r' c' : Nat)
    (h : ¬(r' = r ∧ c' = c)) :
    matchAt (toggleComplete rounds r c) r' c' = matchAt rounds r' c' := by
  unfold matchAt toggleComplete
  rw [mapWithIdx_getElem?]
  cases hr : rounds[r']? with
  | none => rfl
  | some round =>
    simp only [Option.map_some', Option.some_bind]
    rw [mapWithIdx_getElem?]
    cases hc2 : round[c']? with
    | none => rfl
    | some m =>
      simp only [Option.map_some']
      have hni : ¬(0 + r' = r ∧ 0 + c' = c) := by simpa using h
      rw [if_neg hni]

theorem toggle_out_of_range (rounds : List (List Match)) (r c : Nat)
    (h : matchAt rounds r c = none) :
    toggleComplete rounds r c = rounds := by
  unfold matchAt at h
  unfold toggleComplete
  apply mapWithIdx_eq_self
  intro k round hk
  cases hr : rounds[r]? with
  | none =>
    have hlen : rounds.length ≤ r := by
      simpa [List.getElem?_eq_none_iff] using hr
    have hklt : k < rounds.length := by
      by_contra hge
      rw [List.getElem?_eq_none (by omega)] at hk
      cases hk
    have hkr : ¬(0 + k = r) := by omega
    apply mapWithIdx_id
    intro k2 m
    rw [if_neg]
    intro hand
    exact hkr hand.1
  | some round0 =>
    rw [hr] at h
    simp only [Option.some_bind] at h
    have hclen : round0.length ≤ c := by
      simpa [List.getElem?_eq_none_iff] using h
    by_cases hkr : 0 + k = r
    · have : round = round0 := by
        rw [show k = r from by omega] at hk
        rw [hr] at hk
        exact (Option.some.inj hk).symm
      subst this
      apply mapWithIdx_eq_self
      intro k2 m hk2
      have hk2lt : k2 < round.length := by
        by_contra hge
        rw [List.getElem?_eq_none (by omega)] at hk2
        cases hk2
      rw [if_neg]
      intro hand
      omega
    · apply mapWithIdx_id
      intro k2 m
      rw [if_neg]
      intro hand
      exact hkr hand.1

theorem mem_dedupFirst_aux :
    ∀ (l acc : List Nat) (x : Nat),
      x ∈ l.foldl (fun acc y => if y ∈ acc then acc else acc ++ [y]) acc ↔ x ∈ acc ∨ x ∈ l := by
  intro l
  induction l with
  | nil => intro acc x; simp
  | cons y rest ih =>
    intro acc x
    simp only [List.foldl_cons]
    rw [ih]
    by_cases hy : y ∈ acc
    · simp only [if_pos hy, List.mem_cons]
      constructor
      · rintro (h | h)
        · exact Or.inl h
        · exact Or.inr (Or.inr h)
      · rintro (h | h | h)
        · exact Or.inl h
        · exact Or.inl (h ▸ hy)
        · exact Or.inr h
    · simp only [if_neg hy, List.mem_append, List.mem_singleton, List.mem_cons]
      tauto

theorem mem_dedupFirst (l : List Nat) (x : Nat) :
    x ∈ Seeded.dedupFirst l ↔ x ∈ l := by
  unfold Seeded.dedupFirst
  rw [mem_dedupFirst_aux]
  simp

theorem toggleMatch_at_other (prev : Nat → Option (List Nat)) (r c k : Nat) (h : k ≠ r) :
    Seeded.toggleMatchComplete prev r c k = prev k := by
  unfold Seeded.toggleMatchComplete
  simp [h]

theorem toggleMatch_at_self (prev : Nat → Option (List Nat)) (r c : Nat) :
    (Seeded.toggleMatchComplete prev r c) r = some (
      if c ∈ Seeded.dedupFirst ((prev r).getD [])
      then (Seeded.dedupFirst ((prev r).getD [])).filter (fun x => x != c)
      else Seeded.dedupFirst ((prev r).getD []) ++ [c]) := by
  unfold Seeded.toggleMatchComplete
  simp

theorem mem_after_toggle (prev : Nat → Option (List Nat)) (r c x : Nat) :
    x ∈ ((Seeded.toggleMatchComplete prev r c) r).getD [] ↔
      (x ∈ (prev r).getD [] ∧ x ≠ c) ∨ (x = c ∧ c ∉ (prev r).getD []) := by
  rw [toggleMatch_at_self, Option.getD_some]
  by_cases hc : c ∈ Seeded.dedupFirst ((prev r).getD [])
  · rw [if_pos hc]
    rw [mem_dedupFirst] at hc
    simp only [List.mem_filter, mem_dedupFirst, bne_iff_ne, ne_eq, decide_eq_true_eq]
    constructor
    · rintro ⟨h1, h2⟩
      exact Or.inl ⟨h1, h2⟩
    · rintro (⟨h1, h2⟩ | ⟨h1, h2⟩)
      · exact ⟨h1, h2⟩
      · exact absurd hc h2
  · rw [if_neg hc]
    rw [mem_dedupFirst] at hc
    simp only [List.mem_append, mem_dedupFirst, List.mem_singleton]
    constructor
    · rintro (h1 | h1)
      · by_cases hx : x = c
        · exact Or.inr ⟨hx, hc⟩
        · exact Or.inl ⟨h1, hx⟩
      · exact Or.inr ⟨h1, hc⟩
    · rintro (⟨h1, _⟩ | ⟨h1, _⟩)
      · exact Or.inl h1
      · exact Or.inr h1

theorem toggleMatch_mem_involutive (cm : Nat → Option (List Nat)) (r c r' c' : Nat) :
    Seeded.matchCompleted
        (Seeded.toggleMatchComplete (Seeded.toggleMatchComplete cm r c) r c) r' c' ↔
      Seeded.matchCompleted cm r' c' := by
  unfold Seeded.matchCompleted
  by_cases hr : r' = r
  · subst hr
    rw [mem_after_toggle]
    rw [mem_after_toggle, mem_after_toggle]
    by_cases hxc : c' = c
    · subst hxc
      by_cases hcL : c' ∈ (cm r').getD []
      · tauto
      · tauto
    · tauto
  · rw [toggleMatch_at_other _ _ _ _ hr, toggleMatch_at_other _ _ _ _ hr]

/-- C8.  Every round builder terminates on every finite input pair list: the
scan of one round accounts exactly for the accepted and leftover pairs
(seeded variant, where accepted pairs are spliced out during the scan), the
loop's result is independent of the fuel bound once it exceeds the remaining
count (so the loop reaches its own exit conditions within `remaining.length`
iterations and cannot run forever), and for the two variants that remove the
accepted round after the scan, a nonempty scanned round strictly shrinks the
remaining list. -/
theorem claim_builder_terminates :
    (∀ (pairs : List (Nat × Nat)) (used : List Nat) (round : List (Nat × Nat)),
      (Seeded.fillRound pairs used round).1.length + (Seeded.fillRound pairs used round).2.length
        = round.length + pairs.length) ∧
    (∀ pairs : List (Nat × Nat), (Seeded.fillRound pairs [] []).1.length = 2 →
      (Seeded.fillRound pairs [] []).2.length + 2 = pairs.length) ∧
    (∀ (f g : Nat) (pairs : List (Nat × Nat)), pairs.length < f → pairs.length < g →
      Seeded.buildLoop f pairs = Seeded.buildLoop g pairs) ∧
    (∀ (remaining : List (Nat × Nat)) (counts : List Nat) (played : List (Nat × Nat))
      (m : Match) (rest : List Match),
      (App.scanRound remaining [] played counts []).1 = m :: rest →
      ((m :: rest).foldl (fun acc x => App.removeFirstPair x.teams acc) remaining).length
        < remaining.length) ∧
    (∀ (remaining : List Match) (m : Match) (rest : List Match),
      Plain.scanRound remaining [] [] = m :: rest →
      ((m :: rest).foldl (fun acc x => Plain.removeFirstBy x.teams acc) remaining).length
        < remaining.length) := by
  refine ⟨fillRound_length, ?_, buildLoop_fuel_seeded, ?_, ?_⟩
  · intro pairs h2
    have := fillRound_length pairs [] []
    simp only [List.length_nil] at this
    omega
  · intro remaining counts played m rest hscan
    have hm : m ∈ (App.scanRound remaining [] played counts []).1 := by
      rw [hscan]; exact List.mem_cons_self _ _
    rcases scanRound_app_mem remaining [] played counts [] m hm with h | h
    · cases h
    · calc ((m :: rest).foldl (fun acc x => App.removeFirstPair x.teams acc) remaining).length
          ≤ (App.removeFirstPair m.teams remaining).length := by
            simpa using foldl_removeFirstPair_le rest (App.removeFirstPair m.teams remaining)
        _ < remaining.length := removeFirstPair_length_lt m.teams remaining h
  · intro remaining m rest hscan
    have hm : m ∈ Plain.scanRound remaining [] [] := by
      rw [hscan]; exact List.mem_cons_self _ _
    rcases scanRound_plain_mem remaining [] [] m hm with h | h
    · cases h
    · calc ((m :: rest).foldl (fun acc x => Plain.removeFirstBy x.teams acc) remaining).length
          ≤ (Plain.removeFirstBy m.teams remaining).length := by
            simpa using foldl_removeFirstBy_le rest (Plain.removeFirstBy m.teams remaining)
        _ < remaining.length := removeFirstBy_length_lt remaining m h

theorem claim_builder_terminates_witness :
    (Seeded.fillRound [(1, 2), (3, 4), (1, 3)] [] []).2.length + 2
        = [((1:Nat), (2:Nat)), (3, 4), (1, 3)].length ∧
    (([⟨(1, 2), false⟩, ⟨(3, 4), false⟩] : List Match).foldl
        (fun acc x => Plain.removeFirstBy x.teams acc) exMatches).length < exMatches.length :=
  ⟨claim_builder_terminates.2.1 [(1, 2), (3, 4), (1, 3)] (by decide),
   claim_builder_terminates.2.2.2.2 exMatches ⟨(1, 2), false⟩ [⟨(3, 4), false⟩] (by decide)⟩

/-- C9 counterexample.  Toggling the same address twice does not return the
whole completion state to its original value in the set-based variant
(part_001): starting from the state mapping round 0 to the completed courts
[0, 1], toggling (0, 0) twice yields the state mapping round 0 to [1, 0] —
every membership (complete flag) is restored but the stored array order is
not, so the completion-state object differs from the original. -/
theorem claim_toggle_involution_counterexample :
    Seeded.toggleMatchComplete (Seeded.toggleMatchComplete cmExample 0 0) 0 0 ≠ cmExample := by
  intro h
  exact absurd (congrFun h 0) (by decide)

/-- C9 amended.  Toggling the same `(roundIndex, courtIndex)` twice returns
every Match's `complete` flag to its original value: for the rounds-based
toggle of App.js/part_000 the whole rounds state is restored exactly (for
every address, in or out of range), and for the set-based completion map of
part_001 the completion status of every match is restored, though the stored
index arrays may be reordered, so only the observable flags — not the raw
state object — are guaranteed identical there. -/
theorem claim_toggle_involution_amended :
    (∀ (rounds : List (List Match)) (r c : Nat),
      toggleComplete (toggleComplete rounds r c) r c = rounds) ∧
    (∀ (cm : Nat → Option (List Nat)) (r c r' c' : Nat),
      Seeded.matchCompleted
          (Seeded.toggleMatchComplete (Seeded.toggleMatchComplete cm r c) r c) r' c' ↔
        Seeded.matchCompleted cm r' c') :=
  ⟨toggle_toggle, toggleMatch_mem_involutive⟩

theorem claim_toggle_involution_amended_witness :
    toggleComplete (toggleComplete exRounds 0 1) 0 1 = exRounds :=
  claim_toggle_involution_amended.1 exRounds 0 1

/-- C10.  Frame property of the rounds-based completion toggle (identical in
App.js and part_000): toggling changes at most the `complete` flag of the
match at the addressed position — the team pairing of every match is
unchanged and every other position is unchanged — and when the address names
no existing match the state is returned unchanged. -/
theorem claim_toggle_frame :
    ∀ (rounds : List (List Match)) (r c : Nat),
      teamsOf (toggleComplete rounds r c) = teamsOf rounds ∧
      (∀ r' c', ¬(r' = r ∧ c' = c) →
        matchAt (toggleComplete rounds r c) r' c' = matchAt rounds r' c') ∧
      (matchAt rounds r c = none → toggleComplete rounds r c = rounds) :=
  fun rounds r c =>
    ⟨toggle_teams rounds r c,
     fun r' c' h => toggle_frame_other rounds r c r' c' h,
     fun h => toggle_out_of_range rounds r c h⟩

theorem claim_toggle_frame_witness :
    matchAt (toggleComplete exRounds 0 0) 1 0 = matchAt exRounds 1 0 ∧
    toggleComplete exRounds 5 0 = exRounds :=
  ⟨(claim_toggle_frame exRounds 0 0).2.1 1 0 (by decide),
   (claim_toggle_frame exRounds 5 0).2.2 (by decide)⟩
